import Mathlib

/-!
Verification of the BB84 QKD notebook (`src/explore.ipynb`).

The notebook has four executable pieces: `gen_bin_key` (BB84 key
generation using a cirq circuit), `unicode_to_binary` /
`binary_to_unicode` (text to bit-string conversions) and `encrypt` /
`decrypt` (an XOR stream cipher with a self-concatenating key stretch).

Embedding choices:
* A single qubit's state is a pair of unnormalised integer amplitudes
  `(a, b)` for `|0>` and `|1>`; the gates `cirq.I`, `cirq.X`, `cirq.H`
  used by the notebook keep amplitudes integral up to a dropped global
  factor of `1/sqrt 2` per `H`, which cancels in the Born rule.
* The ambient random draws of `random.choices` (encoder bits, encoder
  bases, decoder bases) and the simulator's coin for mismatched-basis
  measurements are passed in explicitly as streams `Nat → Bool` /
  `Nat → Basis`; the notebook reads exactly the first `num_bits` values
  of each.
* Python strings of text are lists of character code points
  (`List Nat`, matching `ord` / `chr`), and binary strings of `'0'` /
  `'1'` characters are `List Bool`.
-/

set_option maxRecDepth 10000

namespace QKD

/-- The two bases `"Z"` and `"X"` drawn by `choices(["Z", "X"], ...)`. -/
inductive Basis where
  | Z
  | X
deriving DecidableEq, Repr

/-- `cirq.X` on unnormalised amplitudes `(a, b)`: swaps `|0>` and `|1>`. -/
def applyX (s : ℤ × ℤ) : ℤ × ℤ := (s.2, s.1)

/-- `cirq.H` on unnormalised amplitudes, with the global `1/sqrt 2` dropped:
`(a, b) ↦ (a + b, a - b)`. -/
def applyH (s : ℤ × ℤ) : ℤ × ℤ := (s.1 + s.2, s.1 - s.2)

/-- `encode_gates = {0: cirq.I, 1: cirq.X}` applied to the qubit. -/
def encode_gate (bit : Bool) (s : ℤ × ℤ) : ℤ × ℤ :=
  if bit then applyX s else s

/-- `basis_gates = {"X": cirq.H, "Z": cirq.I}` applied to the qubit. -/
def basis_gate (b : Basis) (s : ℤ × ℤ) : ℤ × ℤ :=
  match b with
  | .X => applyH s
  | .Z => s

/-- Amplitudes of one qubit after the combined BB84 circuit: starting
from `|0>`, the encoder appends `encode_gate` then `basis_gate basisA`,
and the decoder appends `basis_gate basisB` before measuring. -/
def qubitAfter (bit : Bool) (basisA basisB : Basis) : ℤ × ℤ :=
  basis_gate basisB (basis_gate basisA (encode_gate bit (1, 0)))

/-- Born probability of observing `outcome` when the simulator measures
amplitudes `s` in the computational basis. -/
def measureProb (s : ℤ × ℤ) (outcome : Bool) : ℚ :=
  (((if outcome then s.2 else s.1) : ℤ) : ℚ) ^ 2 / ((s.1 : ℚ) ^ 2 + (s.2 : ℚ) ^ 2)

/-- One sampled measurement of `qubitAfter bit basisA basisB`: the
outcome is forced when one amplitude vanishes, and is the simulator's
random draw `noise` when both outcomes have positive probability. -/
def measureOutcome (bit : Bool) (basisA basisB : Basis) (noise : Bool) : Bool :=
  let s := qubitAfter bit basisA basisB
  if s.2 = 0 then false
  else if s.1 = 0 then true
  else noise

/-- `num_bits = min_key_length * 4` from `gen_bin_key`. -/
def num_bits (min_key_length : Nat) : Nat := min_key_length * 4

/-- `decoder_key = results.measurements["second person key"][0]`: bit `i`
is the sampled measurement of qubit `i` of the combined circuit. -/
def decoder_key (encoder_key : Nat → Bool) (encoder_bases decoder_bases : Nat → Basis)
    (noise : Nat → Bool) : Nat → Bool :=
  fun i => measureOutcome (encoder_key i) (encoder_bases i) (decoder_bases i) (noise i)

/-- The sifting loop of `gen_bin_key`: for `bit in range(num_bits)`,
append `encoder_key[bit]` and `decoder_key[bit]` to the two outputs
whenever `encoder_bases[bit] == decoder_bases[bit]`. -/
def sift (keyA keyB : Nat → Bool) (basesA basesB : Nat → Basis) (n : Nat) :
    List Bool × List Bool :=
  (List.range n).foldl
    (fun acc i =>
      if basesA i = basesB i then (acc.1 ++ [keyA i], acc.2 ++ [keyB i]) else acc)
    ([], [])

/-- The positions `0 ≤ i < n` whose two bases agree, in ascending order. -/
def matchingPositions (basesA basesB : Nat → Basis) (n : Nat) : List Nat :=
  (List.range n).filter (fun i => decide (basesA i = basesB i))

/-- The final comparison of `gen_bin_key`: compare the first
`num_bits_to_compare = int(len(final_encoder_key) * .5)` sifted bits of
the two parties; on a match return the remaining suffix of the encoder's
sifted key, otherwise signal the eavesdropper. -/
def eavesdropperCheck (final_encoder_key final_decoder_key : List Bool) :
    Option (List Bool) :=
  let num_bits_to_compare := final_encoder_key.length / 2
  if final_encoder_key.take num_bits_to_compare
      = final_decoder_key.take num_bits_to_compare then
    some (final_encoder_key.drop num_bits_to_compare)
  else
    none

/-- The pair `(final_encoder_key, final_decoder_key)` computed by the
sifting loop of `gen_bin_key` on `num_bits min_key_length` positions. -/
def siftedKeys (min_key_length : Nat) (encoder_key : Nat → Bool)
    (encoder_bases decoder_bases : Nat → Basis) (noise : Nat → Bool) :
    List Bool × List Bool :=
  sift encoder_key (decoder_key encoder_key encoder_bases decoder_bases noise)
    encoder_bases decoder_bases (num_bits min_key_length)

/-- `gen_bin_key(min_key_length)`, with the random draws made explicit:
sift the encoder key against the measured decoder key, compare half of
the sifted bits, and return the remaining encoder bits as a string of
`'0'` / `'1'` characters, or the eavesdropper message on a mismatch. -/
def gen_bin_key (min_key_length : Nat) (encoder_key : Nat → Bool)
    (encoder_bases decoder_bases : Nat → Basis) (noise : Nat → Bool) : String :=
  match
    eavesdropperCheck
      (siftedKeys min_key_length encoder_key encoder_bases decoder_bases noise).1
      (siftedKeys min_key_length encoder_key encoder_bases decoder_bases noise).2
  with
  | some final_encoder_key =>
      ⟨final_encoder_key.map (fun b => if b then '1' else '0')⟩
  | none => "There was an eavesdropper!"

/-- Claim C1: for every simulated qubit prepared as `(basis, bit)`, if the
measurement basis equals the preparation basis then the Born probability
of reading back `bit` is `1`, and the sampled outcome equals `bit`
whatever the simulator's random draw is — deterministic, per qubit. -/
theorem measurement_deterministic_on_basis_match (bit : Bool) (b : Basis) (noise : Bool) :
    measureProb (qubitAfter bit b b) bit = 1 ∧ measureOutcome bit b b noise = bit := by
  cases bit <;> cases b <;>
    simp [measureProb, measureOutcome, qubitAfter, basis_gate, encode_gate,
      applyH, applyX]

/-! ## The cipher layer -/

/-- The big-endian significant binary digits of `n` (`format(n, 'b')`
without padding), computed with `n` itself as structural recursion fuel
so that the kernel can evaluate it. -/
def natBitsAux : Nat → Nat → List Bool
  | 0, _ => []
  | fuel + 1, n =>
      if n = 0 then [] else natBitsAux fuel (n / 2) ++ [decide (n % 2 = 1)]

/-- Significant binary digits of `n`, most significant first; `[]` for `0`. -/
def natBits (n : Nat) : List Bool := natBitsAux n n

/-- `format(n, 'b')`: the binary digits of `n`, at least one digit, so
`'0'` for `n = 0`. -/
def sigBits (n : Nat) : List Bool :=
  if n = 0 then [false] else natBits n

/-- `format(n, '08b')`: the binary digits of `n`, left-padded with `'0'`
up to width 8.  There is no truncation: for `n ≥ 256` the result is
longer than 8 digits. -/
def format08 (n : Nat) : List Bool :=
  List.replicate (8 - (sigBits n).length) false ++ sigBits n

/-- `unicode_to_binary(text)`: concatenate `format(ord(char), '08b')`
over the characters of `text` (characters are code points here). -/
def unicode_to_binary (text : List Nat) : List Bool :=
  text.foldr (fun char acc => format08 char ++ acc) []

/-- `int(s, 2)`: the value of a big-endian binary digit string. -/
def bitsToNat (l : List Bool) : Nat :=
  l.foldl (fun acc b => 2 * acc + (if b then 1 else 0)) 0

/-- `binary_to_unicode(binary)`: split the digit string into chunks of 8
from the front (the last chunk may be shorter) and decode each chunk
with `int(-, 2)` into a code point. -/
def binary_to_unicode (binary : List Bool) : List Nat :=
  if binary.isEmpty then []
  else bitsToNat (binary.take 8) :: binary_to_unicode (binary.drop 8)
termination_by binary.length
decreasing_by
  simp only [List.length_drop]
  cases binary with
  | nil => simp [List.isEmpty] at *
  | cons b l => simp only [List.length_cons]; omega

/-- The key-stretching loop `while len(key) < len(text): key += key` of
`encrypt` / `decrypt`, as a total function.  The extra guard
`key ≠ []` only makes Lean's termination checker happy: on an empty key
the Python loop runs forever (see `stretchFuel`), and on a nonempty key
the guard never fires before the loop's own exit condition. -/
def stretch (key : List Bool) (n : Nat) : List Bool :=
  if h : key.length < n ∧ key ≠ [] then stretch (key ++ key) n else key
termination_by n - key.length
decreasing_by
  simp only [List.length_append]
  have hpos : 0 < key.length := List.length_pos.mpr h.2
  omega

/-- The key-stretching loop with an explicit iteration budget: its exact
operational semantics.  `none` means the loop has not exited within
`fuel` iterations. -/
def stretchFuel : Nat → List Bool → Nat → Option (List Bool)
  | 0, key, n => if key.length < n then none else some key
  | fuel + 1, key, n =>
      if key.length < n then stretchFuel fuel (key ++ key) n else some key

/-- The XOR loop of `encrypt` / `decrypt`: bit `i` of the output is
`int(text[i]) ^ int(key[i])` for `i in range(len(text))`. -/
def xorBits (text key : List Bool) : List Bool :=
  (List.range text.length).map
    (fun i => Bool.xor (text.getD i false) (key.getD i false))

/-- `encrypt(text, key)`: convert the text to binary, stretch the key to
at least that length, XOR bitwise, and regroup into characters. -/
def encrypt (text : List Nat) (key : List Bool) : List Nat :=
  let text_binary := unicode_to_binary text
  let stretched_key := stretch key text_binary.length
  let encrypted_text := xorBits text_binary stretched_key
  binary_to_unicode encrypted_text

/-- `decrypt(text, key)`: the notebook's decryption routine — the same
conversion, key stretch, XOR and regrouping as `encrypt`. -/
def decrypt (text : List Nat) (key : List Bool) : List Nat :=
  let binary_encrypted_text := unicode_to_binary text
  let stretched_key := stretch key binary_encrypted_text.length
  let decrypted_text := xorBits binary_encrypted_text stretched_key
  binary_to_unicode decrypted_text

/-- The canonical fixed-width big-endian binary encoding, used to state
what `format08` does on code points below `2 ^ 8`. -/
def toBinary : Nat → Nat → List Bool
  | 0, _ => []
  | w + 1, n => toBinary w (n / 2) ++ [decide (n % 2 = 1)]

/-! ## Binary-string lemmas -/

lemma bitsToNat_snoc (l : List Bool) (b : Bool) :
    bitsToNat (l ++ [b]) = 2 * bitsToNat l + (if b then 1 else 0) := by
  simp [bitsToNat, List.foldl_append]

lemma toBinary_length (w : Nat) : ∀ n, (toBinary w n).length = w := by
  induction w with
  | zero => intro n; rfl
  | succ w ih => intro n; simp [toBinary, ih]

lemma bitsToNat_toBinary (w : Nat) : ∀ n, n < 2 ^ w → bitsToNat (toBinary w n) = n := by
  induction w with
  | zero =>
      intro n hn
      have h0 : (2 : Nat) ^ 0 = 1 := pow_zero 2
      have hn0 : n = 0 := by omega
      subst hn0; rfl
  | succ w ih =>
      intro n hn
      have h2 : 2 ^ (w + 1) = 2 * 2 ^ w := by rw [pow_succ]; ring
      have hdiv : n / 2 < 2 ^ w := by omega
      rw [toBinary, bitsToNat_snoc, ih (n / 2) hdiv]
      rcases Nat.mod_two_eq_zero_or_one n with h | h
      · rw [decide_eq_false (by omega)]
        show 2 * (n / 2) + 0 = n
        omega
      · rw [decide_eq_true h]
        show 2 * (n / 2) + 1 = n
        omega

lemma toBinary_bitsToNat : ∀ l : List Bool, toBinary l.length (bitsToNat l) = l := by
  intro l
  induction l using List.reverseRecOn with
  | nil => rfl
  | append_singleton l b ih =>
      have hlen : (l ++ [b]).length = l.length + 1 := by simp
      rw [hlen, bitsToNat_snoc, toBinary]
      have hdiv : (2 * bitsToNat l + (if b then 1 else 0)) / 2 = bitsToNat l := by
        cases b
        · show (2 * bitsToNat l + 0) / 2 = bitsToNat l; omega
        · show (2 * bitsToNat l + 1) / 2 = bitsToNat l; omega
      have hmod : decide ((2 * bitsToNat l + (if b then 1 else 0)) % 2 = 1) = b := by
        cases b
        · show decide ((2 * bitsToNat l + 0) % 2 = 1) = false
          exact decide_eq_false (by omega)
        · show decide ((2 * bitsToNat l + 1) % 2 = 1) = true
          exact decide_eq_true (by omega)
      rw [hdiv, hmod, ih]

lemma toBinary_bitsToNat_of_length (l : List Bool) (w : Nat) (h : l.length = w) :
    toBinary w (bitsToNat l) = l := by
  rw [← h]
  exact toBinary_bitsToNat l

lemma bitsToNat_lt (l : List Bool) : bitsToNat l < 2 ^ l.length := by
  induction l using List.reverseRecOn with
  | nil => simp [bitsToNat]
  | append_singleton l b ih =>
      have hlen : (l ++ [b]).length = l.length + 1 := by simp
      rw [bitsToNat_snoc, hlen, pow_succ]
      have hc : (if b then 1 else 0) ≤ 1 := by cases b <;> simp
      omega

lemma format08_eq_toBinary : ∀ n, n < 256 → format08 n = toBinary 8 n := by decide

lemma format08_length_of_lt {n : Nat} (h : n < 256) : (format08 n).length = 8 := by
  rw [format08_eq_toBinary n h, toBinary_length]

lemma format08_length_pos (n : Nat) : 0 < (format08 n).length := by
  unfold format08
  simp only [List.length_append, List.length_replicate]
  omega

lemma unicode_to_binary_nil : unicode_to_binary [] = [] := rfl

lemma unicode_to_binary_cons (c : Nat) (t : List Nat) :
    unicode_to_binary (c :: t) = format08 c ++ unicode_to_binary t := rfl

lemma unicode_to_binary_length (text : List Nat) (h : ∀ c ∈ text, c < 256) :
    (unicode_to_binary text).length = 8 * text.length := by
  induction text with
  | nil => rfl
  | cons c t ih =>
      rw [unicode_to_binary_cons]
      simp only [List.length_append, List.length_cons]
      rw [format08_length_of_lt (h c (List.mem_cons_self c t)),
        ih (fun x hx => h x (List.mem_cons_of_mem c hx))]
      ring

lemma binary_to_unicode_nil : binary_to_unicode [] = [] := by
  rw [binary_to_unicode]
  rfl

lemma binary_to_unicode_append8 (c8 rest : List Bool) (h : c8.length = 8) :
    binary_to_unicode (c8 ++ rest) = bitsToNat c8 :: binary_to_unicode rest := by
  have hne : (c8 ++ rest).isEmpty = false := by
    cases c8 with
    | nil => simp at h
    | cons a l => rfl
  rw [binary_to_unicode, hne]
  simp only [Bool.false_eq_true, if_false]
  rw [List.take_left' h, List.drop_left' h]

lemma binary_to_unicode_length : ∀ (m : Nat) (bits : List Bool),
    bits.length = 8 * m → (binary_to_unicode bits).length = m := by
  intro m
  induction m with
  | zero =>
      intro bits h
      have hnil : bits = [] := List.eq_nil_of_length_eq_zero (by omega)
      subst hnil
      rw [binary_to_unicode_nil]
      rfl
  | succ m ih =>
      intro bits h
      have htake : (bits.take 8).length = 8 := by rw [List.length_take]; omega
      have hdrop : (bits.drop 8).length = 8 * m := by rw [List.length_drop]; omega
      have hstep : binary_to_unicode bits
          = bitsToNat (bits.take 8) :: binary_to_unicode (bits.drop 8) := by
        conv_lhs => rw [← List.take_append_drop 8 bits]
        rw [binary_to_unicode_append8 _ _ htake]
      rw [hstep]
      simp [ih _ hdrop]

lemma bits_roundtrip : ∀ (m : Nat) (bits : List Bool), bits.length = 8 * m →
    unicode_to_binary (binary_to_unicode bits) = bits := by
  intro m
  induction m with
  | zero =>
      intro bits h
      have hnil : bits = [] := List.eq_nil_of_length_eq_zero (by omega)
      subst hnil
      rw [binary_to_unicode_nil]
      rfl
  | succ m ih =>
      intro bits h
      have htake : (bits.take 8).length = 8 := by rw [List.length_take]; omega
      have hdrop : (bits.drop 8).length = 8 * m := by rw [List.length_drop]; omega
      have hstep : binary_to_unicode bits
          = bitsToNat (bits.take 8) :: binary_to_unicode (bits.drop 8) := by
        conv_lhs => rw [← List.take_append_drop 8 bits]
        rw [binary_to_unicode_append8 _ _ htake]
      rw [hstep, unicode_to_binary_cons, ih _ hdrop]
      have h256 : (2 : Nat) ^ 8 = 256 := by norm_num
      have hlt : bitsToNat (bits.take 8) < 256 := by
        have hb := bitsToNat_lt (bits.take 8)
        rw [htake] at hb
        omega
      rw [format08_eq_toBinary _ hlt, toBinary_bitsToNat_of_length _ _ htake]
      exact List.take_append_drop 8 bits

lemma text_roundtrip (text : List Nat) (h : ∀ c ∈ text, c < 256) :
    binary_to_unicode (unicode_to_binary text) = text := by
  induction text with
  | nil => exact binary_to_unicode_nil
  | cons c t ih =>
      have hc : c < 256 := h c (List.mem_cons_self c t)
      rw [unicode_to_binary_cons,
        binary_to_unicode_append8 _ _ (format08_length_of_lt hc),
        ih (fun x hx => h x (List.mem_cons_of_mem c hx))]
      have h256 : (2 : Nat) ^ 8 = 256 := by norm_num
      rw [format08_eq_toBinary c hc, bitsToNat_toBinary 8 c (by omega)]

/-! ## Key-stretching and XOR lemmas -/

lemma stretch_ge_aux : ∀ (m : Nat) (key : List Bool) (n : Nat),
    n - key.length ≤ m → key ≠ [] → n ≤ (stretch key n).length := by
  intro m
  induction m with
  | zero =>
      intro key n hm hne
      have hle : n ≤ key.length := by omega
      rw [stretch, dif_neg (fun hcon => absurd hcon.1 (not_lt.mpr hle))]
      exact hle
  | succ m ih =>
      intro key n hm hne
      by_cases hlt : key.length < n
      · have hpos : 0 < key.length := List.length_pos.mpr hne
        have happ : key ++ key ≠ [] := by
          cases key with
          | nil => exact absurd rfl hne
          | cons a l => simp
        rw [stretch, dif_pos ⟨hlt, hne⟩]
        refine ih (key ++ key) n ?_ happ
        simp only [List.length_append]
        omega
      · rw [stretch, dif_neg (fun hcon => hlt hcon.1)]
        omega

lemma stretch_length_ge (key : List Bool) (n : Nat) (hne : key ≠ []) :
    n ≤ (stretch key n).length :=
  stretch_ge_aux (n - key.length) key n le_rfl hne

lemma stretchFuel_nil (fuel : Nat) : ∀ n, 0 < n → stretchFuel fuel [] n = none := by
  induction fuel with
  | zero =>
      intro n hn
      show (if ([] : List Bool).length < n then none else some []) = none
      rw [if_pos (by simpa using hn)]
  | succ fuel ih =>
      intro n hn
      show (if ([] : List Bool).length < n
          then stretchFuel fuel ([] ++ []) n else some []) = none
      rw [if_pos (by simpa using hn)]
      exact ih n hn

lemma stretchFuel_eq_stretch : ∀ (fuel : Nat) (key : List Bool) (n : Nat),
    key ≠ [] → n - key.length ≤ fuel →
    stretchFuel fuel key n = some (stretch key n) := by
  intro fuel
  induction fuel with
  | zero =>
      intro key n hne hm
      have hle : n ≤ key.length := by omega
      rw [stretch, dif_neg (fun hcon => absurd hcon.1 (not_lt.mpr hle))]
      show (if key.length < n then none else some key) = some key
      rw [if_neg (not_lt.mpr hle)]
  | succ fuel ih =>
      intro key n hne hm
      by_cases hlt : key.length < n
      · have hpos : 0 < key.length := List.length_pos.mpr hne
        have happ : key ++ key ≠ [] := by
          cases key with
          | nil => exact absurd rfl hne
          | cons a l => simp
        rw [stretch, dif_pos ⟨hlt, hne⟩]
        show (if key.length < n then stretchFuel fuel (key ++ key) n else some key)
            = some (stretch (key ++ key) n)
        rw [if_pos hlt]
        refine ih (key ++ key) n happ ?_
        simp only [List.length_append]
        omega
      · rw [stretch, dif_neg (fun hcon => hlt hcon.1)]
        show (if key.length < n then stretchFuel fuel (key ++ key) n else some key)
            = some key
        rw [if_neg hlt]

lemma xorBits_length (t k : List Bool) : (xorBits t k).length = t.length := by
  simp [xorBits]

lemma xorBits_getElem (t k : List Bool) (i : Nat) (h : i < (xorBits t k).length) :
    (xorBits t k)[i] = Bool.xor (t.getD i false) (k.getD i false) := by
  simp [xorBits]

lemma xorBits_cancel (t k : List Bool) : xorBits (xorBits t k) k = t := by
  apply List.ext_getElem
  · simp [xorBits_length]
  · intro i h1 h2
    rw [xorBits_getElem]
    have hi : i < (xorBits t k).length := by rw [xorBits_length]; exact h2
    rw [List.getD_eq_getElem _ _ hi, xorBits_getElem _ _ _ hi]
    have hxor : ∀ a b : Bool, Bool.xor (Bool.xor a b) b = a := by decide
    rw [hxor, List.getD_eq_getElem _ _ h2]

/-! ## Sifting and key-generation lemmas -/

lemma measureOutcome_match (bit : Bool) (b : Basis) (noise : Bool) :
    measureOutcome bit b b noise = bit := by
  cases bit <;> cases b <;>
    simp [measureOutcome, qubitAfter, basis_gate, encode_gate, applyH, applyX]

lemma sift_eq_maps (kA kB : Nat → Bool) (bA bB : Nat → Basis) (n : Nat) :
    sift kA kB bA bB n
      = ((matchingPositions bA bB n).map kA, (matchingPositions bA bB n).map kB) := by
  induction n with
  | zero => rfl
  | succ n ih =>
      unfold sift matchingPositions at *
      rw [List.range_succ, List.foldl_append, List.filter_append, ih]
      by_cases h : bA n = bB n
      · simp [h]
      · simp [h]

lemma mem_matchingPositions (bA bB : Nat → Basis) (n i : Nat) :
    i ∈ matchingPositions bA bB n ↔ i < n ∧ bA i = bB i := by
  simp [matchingPositions, List.mem_filter, List.mem_range]

lemma matchingPositions_sorted (bA bB : Nat → Basis) (n : Nat) :
    List.Sorted (· < ·) (matchingPositions bA bB n) :=
  (List.sorted_lt_range n).filter _

lemma matchingPositions_length_le (bA bB : Nat → Basis) (n : Nat) :
    (matchingPositions bA bB n).length ≤ n := by
  have h := List.length_filter_le (fun i => decide (bA i = bB i)) (List.range n)
  simpa [matchingPositions] using h

lemma siftedKeys_eq (m : Nat) (ek : Nat → Bool) (bA bB : Nat → Basis) (noise : Nat → Bool) :
    (siftedKeys m ek bA bB noise).1 = (siftedKeys m ek bA bB noise).2 := by
  unfold siftedKeys
  rw [sift_eq_maps]
  show List.map ek (matchingPositions bA bB (num_bits m))
      = List.map (decoder_key ek bA bB noise) (matchingPositions bA bB (num_bits m))
  refine List.map_congr_left (fun i hi => ?_)
  have hb : bA i = bB i := ((mem_matchingPositions bA bB (num_bits m) i).mp hi).2
  unfold decoder_key
  rw [← hb, measureOutcome_match]

lemma eavesdropperCheck_self (a : List Bool) :
    eavesdropperCheck a a = some (a.drop (a.length / 2)) := by
  unfold eavesdropperCheck
  simp

lemma gen_bin_key_eq (m : Nat) (ek : Nat → Bool) (bA bB : Nat → Basis)
    (noise : Nat → Bool) :
    gen_bin_key m ek bA bB noise
      = ⟨((siftedKeys m ek bA bB noise).1.drop
            ((siftedKeys m ek bA bB noise).1.length / 2)).map
          (fun b => if b then '1' else '0')⟩ := by
  unfold gen_bin_key
  rw [← siftedKeys_eq, eavesdropperCheck_self]

lemma siftedKeys_length_le (m : Nat) (ek : Nat → Bool) (bA bB : Nat → Basis)
    (noise : Nat → Bool) :
    (siftedKeys m ek bA bB noise).1.length ≤ num_bits m := by
  unfold siftedKeys
  rw [sift_eq_maps]
  simpa using matchingPositions_length_le bA bB (num_bits m)

/-- Claim C2: the abort branch is unreachable — for every
`min_key_length ≥ 1` and every run of the simulation, `gen_bin_key`
never returns `"There was an eavesdropper!"`, because every sifted
position has matching bases, matching-basis measurement is
deterministic, and so the disclosed-prefix comparison succeeds. -/
theorem gen_bin_key_never_aborts (m : Nat) (hm : 1 ≤ m) (ek : Nat → Bool)
    (bA bB : Nat → Basis) (noise : Nat → Bool) :
    gen_bin_key m ek bA bB noise ≠ "There was an eavesdropper!" := by
  rw [gen_bin_key_eq]
  intro hcontra
  have hdata := congrArg String.data hcontra
  have hT : 'T' ∈ ("There was an eavesdropper!").data := by decide
  rw [← hdata] at hT
  rcases List.mem_map.mp hT with ⟨bb, -, hbb⟩
  cases bb <;> exact absurd hbb (by decide)

/-- Witness for C2 at `min_key_length = 1` with concrete random draws. -/
theorem gen_bin_key_never_aborts_witness :
    1 ≤ 1 ∧
      gen_bin_key 1 (fun _ => false) (fun _ => Basis.Z) (fun _ => Basis.Z)
          (fun _ => false)
        ≠ "There was an eavesdropper!" :=
  ⟨le_rfl,
    gen_bin_key_never_aborts 1 le_rfl (fun _ => false) (fun _ => Basis.Z)
      (fun _ => Basis.Z) (fun _ => false)⟩

/-- Claim C4: on two sifted sequences of equal length `L` the check
compares the length-`⌊L * 0.5⌋` prefixes; on identical sequences it
succeeds and yields the suffix of the encoder sequence, of length
`L - ⌊L * 0.5⌋`; on `L = 0` it succeeds with an empty final key. -/
theorem eavesdropper_check_spec (a b : List Bool) (h : a.length = b.length) :
    eavesdropperCheck a b
        = (if a.take (a.length / 2) = b.take (a.length / 2)
           then some (a.drop (a.length / 2)) else none)
      ∧ eavesdropperCheck a a = some (a.drop (a.length / 2))
      ∧ (a.drop (a.length / 2)).length = a.length - a.length / 2
      ∧ eavesdropperCheck [] [] = some ([] : List Bool) := by
  refine ⟨rfl, eavesdropperCheck_self a, ?_, rfl⟩
  simp

/-- Witness for C4 on the equal-length pair `[true, false]`,
`[false, true]` (whose disclosed prefixes differ). -/
theorem eavesdropper_check_spec_witness :
    ([true, false] : List Bool).length = ([false, true] : List Bool).length
      ∧ (eavesdropperCheck [true, false] [false, true]
            = (if ([true, false] : List Bool).take (([true, false] : List Bool).length / 2)
                  = ([false, true] : List Bool).take (([true, false] : List Bool).length / 2)
               then some (([true, false] : List Bool).drop (([true, false] : List Bool).length / 2))
               else none)
          ∧ eavesdropperCheck [true, false] [true, false]
              = some (([true, false] : List Bool).drop (([true, false] : List Bool).length / 2))
          ∧ (([true, false] : List Bool).drop (([true, false] : List Bool).length / 2)).length
              = ([true, false] : List Bool).length - ([true, false] : List Bool).length / 2
          ∧ eavesdropperCheck [] [] = some ([] : List Bool)) :=
  ⟨rfl, eavesdropper_check_spec [true, false] [false, true] rfl⟩

/-- Claim C5: the sifting loop visits positions `0..num_bits-1` in
ascending order and keeps a position exactly when the two bases there
agree; the two outputs have equal length and, position by position, are
the two parties' bits at the same original index. -/
theorem sift_correct (kA kB : Nat → Bool) (bA bB : Nat → Basis) (n : Nat) :
    (sift kA kB bA bB n).1.length = (sift kA kB bA bB n).2.length
      ∧ (sift kA kB bA bB n).1 = (matchingPositions bA bB n).map kA
      ∧ (sift kA kB bA bB n).2 = (matchingPositions bA bB n).map kB
      ∧ (∀ i, i ∈ matchingPositions bA bB n ↔ i < n ∧ bA i = bB i)
      ∧ List.Sorted (· < ·) (matchingPositions bA bB n) := by
  have h := sift_eq_maps kA kB bA bB n
  refine ⟨?_, ?_, ?_, mem_matchingPositions bA bB n, matchingPositions_sorted bA bB n⟩
  · rw [h]; simp
  · rw [h]
  · rw [h]

/-- Counterexample to C6 as stated.  With `min_key_length = 1` and all
bases `Z` on both sides every position survives sifting, so the sifted
length equals `num_bits` instead of being strictly below it; and with
all encoder bases `Z` and all decoder bases `X` nothing survives
sifting, the run still succeeds with the empty key, whose length equals
the sifted length `0` instead of being strictly below it. -/
theorem gen_bin_key_sizing_cex :
    (gen_bin_key 1 (fun _ => false) (fun _ => Basis.Z) (fun _ => Basis.Z)
          (fun _ => false) = "00"
      ∧ ¬ ((siftedKeys 1 (fun _ => false) (fun _ => Basis.Z) (fun _ => Basis.Z)
              (fun _ => false)).1.length < num_bits 1))
    ∧ (gen_bin_key 1 (fun _ => false) (fun _ => Basis.Z) (fun _ => Basis.X)
          (fun _ => false) = ""
      ∧ ¬ ((gen_bin_key 1 (fun _ => false) (fun _ => Basis.Z) (fun _ => Basis.X)
                (fun _ => false)).length
            < (siftedKeys 1 (fun _ => false) (fun _ => Basis.Z) (fun _ => Basis.X)
                (fun _ => false)).1.length)) := by
  decide

/-- Claim C6 (amended): `gen_bin_key` sets `num_bits = min_key_length * 4`
and on success returns a string of only `'0'` / `'1'` characters whose
length is the sifted length minus half of it; the returned length is at
most the sifted length, the sifted length is at most `num_bits`, and for
`min_key_length ≥ 1` the returned length is strictly below `num_bits`
(so `< 40` for `min_key_length = 10`). -/
theorem gen_bin_key_sizing (m : Nat) (hm : 1 ≤ m) (ek : Nat → Bool)
    (bA bB : Nat → Basis) (noise : Nat → Bool) :
    num_bits m = m * 4
      ∧ (gen_bin_key m ek bA bB noise).data.all (fun c => c == '0' || c == '1') = true
      ∧ (gen_bin_key m ek bA bB noise).length
          = (siftedKeys m ek bA bB noise).1.length
              - (siftedKeys m ek bA bB noise).1.length / 2
      ∧ (gen_bin_key m ek bA bB noise).length ≤ (siftedKeys m ek bA bB noise).1.length
      ∧ (siftedKeys m ek bA bB noise).1.length ≤ num_bits m
      ∧ (gen_bin_key m ek bA bB noise).length < num_bits m := by
  have hL := siftedKeys_length_le m ek bA bB noise
  have hg := gen_bin_key_eq m ek bA bB noise
  have hlen : (gen_bin_key m ek bA bB noise).length
      = (siftedKeys m ek bA bB noise).1.length
          - (siftedKeys m ek bA bB noise).1.length / 2 := by
    rw [hg]
    show (List.map (fun b => if b then '1' else '0')
        ((siftedKeys m ek bA bB noise).1.drop
          ((siftedKeys m ek bA bB noise).1.length / 2))).length = _
    simp
  have h4 : 4 ≤ num_bits m := by unfold num_bits; omega
  refine ⟨rfl, ?_, hlen, ?_, hL, ?_⟩
  · rw [hg]
    show (List.map (fun b => if b then '1' else '0')
        ((siftedKeys m ek bA bB noise).1.drop
          ((siftedKeys m ek bA bB noise).1.length / 2))).all
        (fun c => c == '0' || c == '1') = true
    rw [List.all_eq_true]
    intro c hc
    rcases List.mem_map.mp hc with ⟨b, -, rfl⟩
    cases b <;> rfl
  · rw [hlen]; omega
  · rw [hlen]; omega

/-! ## Significant-digit lemmas for code points above 255 -/

lemma natBitsAux_bitsToNat : ∀ (fuel n : Nat), n ≤ fuel →
    bitsToNat (natBitsAux fuel n) = n := by
  intro fuel
  induction fuel with
  | zero =>
      intro n h
      have hn0 : n = 0 := by omega
      subst hn0; rfl
  | succ fuel ih =>
      intro n h
      by_cases hn : n = 0
      · subst hn; rfl
      · rw [natBitsAux, if_neg hn, bitsToNat_snoc, ih (n / 2) (by omega)]
        rcases Nat.mod_two_eq_zero_or_one n with hm | hm
        · rw [decide_eq_false (by omega)]
          show 2 * (n / 2) + 0 = n
          omega
        · rw [decide_eq_true hm]
          show 2 * (n / 2) + 1 = n
          omega

lemma natBitsAux_length_gt : ∀ (w fuel n : Nat), n ≤ fuel → 2 ^ w ≤ n →
    w < (natBitsAux fuel n).length := by
  intro w
  induction w with
  | zero =>
      intro fuel n hf h1
      have h0 : (2 : Nat) ^ 0 = 1 := pow_zero 2
      cases fuel with
      | zero => omega
      | succ fuel =>
          have hn : n ≠ 0 := by omega
          rw [natBitsAux, if_neg hn]
          simp
  | succ w ih =>
      intro fuel n hf h1
      have hw : 1 ≤ 2 ^ (w + 1) := Nat.one_le_two_pow
      cases fuel with
      | zero => omega
      | succ fuel =>
          have hn : n ≠ 0 := by omega
          rw [natBitsAux, if_neg hn]
          have h2 : 2 ^ (w + 1) = 2 * 2 ^ w := by rw [pow_succ]; ring
          have hdiv : 2 ^ w ≤ n / 2 := by omega
          have hfd : n / 2 ≤ fuel := by omega
          have hlen := ih fuel (n / 2) hfd hdiv
          simp only [List.length_append, List.length_cons, List.length_nil]
          omega

lemma natBits_bitsToNat (n : Nat) : bitsToNat (natBits n) = n :=
  natBitsAux_bitsToNat n n le_rfl

lemma natBits_length_gt (w n : Nat) (h : 2 ^ w ≤ n) : w < (natBits n).length :=
  natBitsAux_length_gt w n n le_rfl h

lemma format08_above (c : Nat) (h : 255 < c) :
    format08 c = natBits c ∧ 8 < (format08 c).length
      ∧ bitsToNat (format08 c) = c := by
  have h256 : (2 : Nat) ^ 8 = 256 := by norm_num
  have hlen : 8 < (natBits c).length := natBits_length_gt 8 c (by omega)
  have hc0 : c ≠ 0 := by omega
  have hsig : sigBits c = natBits c := if_neg hc0
  have heq : format08 c = natBits c := by
    unfold format08
    rw [hsig]
    have hz : 8 - (natBits c).length = 0 := by omega
    rw [hz]
    simp
  refine ⟨heq, ?_, ?_⟩
  · rw [heq]; exact hlen
  · rw [heq]; exact natBits_bitsToNat c

/-! ## Cipher claims -/

/-- Claim C3: the cipher round-trips — for every text of code points in
`0..255` and every non-empty binary key,
`decrypt (encrypt text key) key = text`. -/
theorem cipher_round_trip (text : List Nat) (key : List Bool)
    (htext : ∀ c ∈ text, c < 256) (hkey : key ≠ []) :
    decrypt (encrypt text key) key = text := by
  have htb : (unicode_to_binary text).length = 8 * text.length :=
    unicode_to_binary_length text htext
  have hxlen : (xorBits (unicode_to_binary text)
      (stretch key (unicode_to_binary text).length)).length = 8 * text.length := by
    rw [xorBits_length, htb]
  have hu2b : unicode_to_binary (encrypt text key)
      = xorBits (unicode_to_binary text)
          (stretch key (unicode_to_binary text).length) :=
    bits_roundtrip text.length _ hxlen
  show binary_to_unicode
      (xorBits (unicode_to_binary (encrypt text key))
        (stretch key (unicode_to_binary (encrypt text key)).length)) = text
  rw [hu2b, xorBits_length, xorBits_cancel]
  exact text_roundtrip text htext

/-- Witness for C3 on the text `"HI"` (code points 72, 73) and the key
`"10"`. -/
theorem cipher_round_trip_witness :
    decrypt (encrypt [72, 73] [true, false]) [true, false] = [72, 73]
      ∧ ([true, false] : List Bool) ≠ [] :=
  ⟨cipher_round_trip [72, 73] [true, false] (by decide) (by decide), by decide⟩

/-- Claim C7: `decrypt` is the identical algorithm to `encrypt` — the
same binary-convert, key-stretch, XOR and regroup transformation. -/
theorem decrypt_eq_encrypt (text : List Nat) (key : List Bool) (hkey : key ≠ []) :
    decrypt text key = encrypt text key := rfl

/-- Witness for C7 at a concrete text and key. -/
theorem decrypt_eq_encrypt_witness :
    decrypt [72] [true] = encrypt [72] [true] ∧ ([true] : List Bool) ≠ [] :=
  ⟨decrypt_eq_encrypt [72] [true] (by decide), by decide⟩

/-- Counterexample to C8 as stated: at code point 256 the conversion
emits the nine digits `100000000` — the full binary representation —
and not the 8-bit encoding of `256 % 256 = 0`. -/
theorem unicode_to_binary_truncation_cex :
    unicode_to_binary [256]
        = [true, false, false, false, false, false, false, false, false]
      ∧ unicode_to_binary [256] ≠ toBinary 8 (256 % 256) := by
  decide

/-- Claim C8 (amended): for a character whose code point exceeds 255 the
conversion emits the full zero-padded binary representation of the code
point — strictly more than 8 digits, decoding back to the exact code
point — with no modular truncation to 8 bits. -/
theorem unicode_to_binary_above_255 (c : Nat) (h : 255 < c) :
    unicode_to_binary [c] = format08 c
      ∧ 8 < (format08 c).length
      ∧ bitsToNat (format08 c) = c := by
  have ha := format08_above c h
  refine ⟨?_, ha.2.1, ha.2.2⟩
  rw [unicode_to_binary_cons, unicode_to_binary_nil, List.append_nil]

/-- Witness for the amended C8 at code point 300. -/
theorem unicode_to_binary_above_255_witness :
    255 < 300
      ∧ (unicode_to_binary [300] = format08 300
        ∧ 8 < (format08 300).length
        ∧ bitsToNat (format08 300) = 300) :=
  ⟨by decide, unicode_to_binary_above_255 300 (by decide)⟩

/-- Claim C9: the key-stretching loop of `encrypt` / `decrypt` never
exits on an empty key and a non-empty text — `stretchFuel` returns
`none` for every iteration budget, since `key += key` leaves an empty
key empty — while on a non-empty key the loop exits (within a budget of
the target length) with the stretched key `encrypt` uses. -/
theorem encrypt_empty_key_diverges (text : List Nat) (key : List Bool) (fuel : Nat)
    (htext : text ≠ []) (hkey : key ≠ []) :
    stretchFuel fuel [] (unicode_to_binary text).length = none
      ∧ stretchFuel (unicode_to_binary text).length key (unicode_to_binary text).length
          = some (stretch key (unicode_to_binary text).length) := by
  have hpos : 0 < (unicode_to_binary text).length := by
    cases text with
    | nil => exact absurd rfl htext
    | cons c t =>
        rw [unicode_to_binary_cons]
        have hfp := format08_length_pos c
        simp only [List.length_append]
        omega
  exact ⟨stretchFuel_nil fuel _ hpos,
    stretchFuel_eq_stretch _ key _ hkey (by omega)⟩

/-- Witness for C9 at text `[72]`, key `[true]`, budget 3. -/
theorem encrypt_empty_key_diverges_witness :
    ([72] : List Nat) ≠ []
      ∧ ([true] : List Bool) ≠ []
      ∧ (stretchFuel 3 [] (unicode_to_binary [72]).length = none
        ∧ stretchFuel (unicode_to_binary [72]).length [true]
              (unicode_to_binary [72]).length
            = some (stretch [true] (unicode_to_binary [72]).length)) :=
  ⟨by decide, by decide,
    encrypt_empty_key_diverges [72] [true] 3 (by decide) (by decide)⟩

/-- Claim C10: length preservation — for every text of code points in
`0..255` and every non-empty binary key, the ciphertext has exactly as
many characters as the text. -/
theorem encrypt_length_preserved (text : List Nat) (key : List Bool)
    (htext : ∀ c ∈ text, c < 256) (hkey : key ≠ []) :
    (encrypt text key).length = text.length := by
  have htb : (unicode_to_binary text).length = 8 * text.length :=
    unicode_to_binary_length text htext
  show (binary_to_unicode (xorBits (unicode_to_binary text)
      (stretch key (unicode_to_binary text).length))).length = text.length
  refine binary_to_unicode_length text.length _ ?_
  rw [xorBits_length, htb]

/-- Witness for C10 on the text `"HI"` and the key `"10"`. -/
theorem encrypt_length_preserved_witness :
    (encrypt [72, 73] [true, false]).length = ([72, 73] : List Nat).length
      ∧ ([true, false] : List Bool) ≠ [] :=
  ⟨encrypt_length_preserved [72, 73] [true, false] (by decide) (by decide), by decide⟩

/-- Witness for the amended C6 at `min_key_length = 1` with concrete
random draws. -/
theorem gen_bin_key_sizing_witness :
    1 ≤ 1 ∧
      (num_bits 1 = 1 * 4
        ∧ (gen_bin_key 1 (fun _ => false) (fun _ => Basis.Z) (fun _ => Basis.Z)
              (fun _ => false)).data.all (fun c => c == '0' || c == '1') = true
        ∧ (gen_bin_key 1 (fun _ => false) (fun _ => Basis.Z) (fun _ => Basis.Z)
              (fun _ => false)).length
            = (siftedKeys 1 (fun _ => false) (fun _ => Basis.Z) (fun _ => Basis.Z)
                  (fun _ => false)).1.length
                - (siftedKeys 1 (fun _ => false) (fun _ => Basis.Z) (fun _ => Basis.Z)
                    (fun _ => false)).1.length / 2
        ∧ (gen_bin_key 1 (fun _ => false) (fun _ => Basis.Z) (fun _ => Basis.Z)
              (fun _ => false)).length
            ≤ (siftedKeys 1 (fun _ => false) (fun _ => Basis.Z) (fun _ => Basis.Z)
                (fun _ => false)).1.length
        ∧ (siftedKeys 1 (fun _ => false) (fun _ => Basis.Z) (fun _ => Basis.Z)
              (fun _ => false)).1.length ≤ num_bits 1
        ∧ (gen_bin_key 1 (fun _ => false) (fun _ => Basis.Z) (fun _ => Basis.Z)
              (fun _ => false)).length < num_bits 1) :=
  ⟨le_rfl,
    gen_bin_key_sizing 1 le_rfl (fun _ => false) (fun _ => Basis.Z) (fun _ => Basis.Z)
      (fun _ => false)⟩

end QKD
